import Mathlib

/-!
Verification of the `sync_point` coordinator (`src/sync_point.cc`,
`src/sync_point.h`).

The C++ class `SyncPoint::Impl` is a single lock-protected state object.  We
embed it shallowly: `std::unordered_map` becomes an association list,
`std::unordered_set` a duplicate-free list, `std::thread::id` a `Nat`, and the
opaque `std::function` callbacks become abstract callback identifiers (`Nat`) —
the engine never inspects a callback, it only stores, erases and invokes it.

The sequential operations (`LoadDependencyAndMarkers`, `SetCallBack`,
`ClearTrace`, `Process`, ...) are translated line by line.  On top of that a
small-step interleaving semantics (`pstep`/`Steps`) models the concurrent
behaviour of `Process` (the wait loop, the callback region executed with the
lock released, the in-flight callback counter) and of the blocking
`ClearCallBack`/`ClearAllCallBacks`, with a ghost log of observable events used
to state happens-before properties.
-/

namespace SyncPoint

abbrev ThreadId := Nat

abbrev CallbackId := Nat

/-- Lookup in an association list (the embedding of `unordered_map::find`). -/
def mfind {κ α : Type} [DecidableEq κ] : List (κ × α) → κ → Option α
  | [], _ => none
  | (k', v) :: rest, k => if k' = k then some v else mfind rest k

/-- Insert-or-assign (the embedding of `unordered_map::operator[] =`). -/
def massign {κ α : Type} [DecidableEq κ] : List (κ × α) → κ → α → List (κ × α)
  | [], k, v => [(k, v)]
  | (k', v') :: rest, k, v =>
      if k' = k then (k, v) :: rest else (k', v') :: massign rest k v

/-- Insert only if the key is absent (the embedding of `unordered_map::emplace`). -/
def memplace {κ α : Type} [DecidableEq κ] (m : List (κ × α)) (k : κ) (v : α) :
    List (κ × α) :=
  match mfind m k with
  | some _ => m
  | none => m ++ [(k, v)]

/-- Remove the (unique) binding of a key (the embedding of `unordered_map::erase`). -/
def merase {κ α : Type} [DecidableEq κ] : List (κ × α) → κ → List (κ × α)
  | [], _ => []
  | (k', v) :: rest, k => if k' = k then rest else (k', v) :: merase rest k

/-- The embedding of `m[k].push_back(v)` on a map from keys to vectors. -/
def mpush {κ : Type} [DecidableEq κ] (m : List (κ × List String)) (k : κ)
    (v : String) : List (κ × List String) :=
  massign m k (((mfind m k).getD []) ++ [v])

/-- Set insertion (the embedding of `unordered_set::insert`). -/
def setInsert (l : List String) (x : String) : List String :=
  if x ∈ l then l else l ++ [x]

/-- `struct SyncPointPair { std::string predecessor; std::string successor; }`. -/
structure SyncPointPair where
  predecessor : String
  successor : String
deriving DecidableEq

/-- The state of `SyncPoint::Impl`: one field per C++ data member. -/
structure Impl where
  enabled_ : Bool
  num_callbacks_running_ : Nat
  successors_ : List (String × List String)
  predecessors_ : List (String × List String)
  callbacks_ : List (String × CallbackId)
  markers_ : List (String × List String)
  marked_thread_id_ : List (String × ThreadId)
  cleared_points_ : List String
deriving DecidableEq

/-- The freshly constructed `Impl` (all maps empty, processing disabled). -/
def initImpl : Impl :=
  { enabled_ := false
    num_callbacks_running_ := 0
    successors_ := []
    predecessors_ := []
    callbacks_ := []
    markers_ := []
    marked_thread_id_ := []
    cleared_points_ := [] }

def EnableProcessing (s : Impl) : Impl := { s with enabled_ := true }

def DisableProcessing (s : Impl) : Impl := { s with enabled_ := false }

/-- One iteration of the `dependencies` loop of `LoadDependencyAndMarkers`. -/
def depStep (t : Impl) (d : SyncPointPair) : Impl :=
  { t with
    successors_ := mpush t.successors_ d.predecessor d.successor
    predecessors_ := mpush t.predecessors_ d.successor d.predecessor }

/-- One iteration of the `markers` loop of `LoadDependencyAndMarkers`. -/
def markerStep (t : Impl) (mk : SyncPointPair) : Impl :=
  { t with
    successors_ := mpush t.successors_ mk.predecessor mk.successor
    predecessors_ := mpush t.predecessors_ mk.successor mk.predecessor
    markers_ := mpush t.markers_ mk.predecessor mk.successor }

def LoadDependencyAndMarkers (s : Impl) (dependencies markers : List SyncPointPair) :
    Impl :=
  let s0 := { s with
    successors_ := []
    predecessors_ := []
    cleared_points_ := []
    markers_ := []
    marked_thread_id_ := [] }
  let s1 := dependencies.foldl depStep s0
  markers.foldl markerStep s1

def SetCallBack (s : Impl) (point : String) (callback : CallbackId) : Impl :=
  { s with callbacks_ := massign s.callbacks_ point callback }

/-- The erase performed by `ClearCallBack` after its wait loop; the wait itself
is modelled in the small-step semantics (`pstep`), where the erase step is only
enabled when `num_callbacks_running_ = 0`. -/
def ClearCallBack (s : Impl) (point : String) : Impl :=
  { s with callbacks_ := merase s.callbacks_ point }

/-- The clear performed by `ClearAllCallBacks` after its wait loop. -/
def ClearAllCallBacks (s : Impl) : Impl :=
  { s with callbacks_ := [] }

def ClearTrace (s : Impl) : Impl :=
  { s with cleared_points_ := [] }

def PredecessorsAllCleared (s : Impl) (point : String) : Bool :=
  ((mfind s.predecessors_ point).getD []).all
    (fun pred => decide (pred ∈ s.cleared_points_))

def DisabledByMarker (s : Impl) (point : String) (thread_id : ThreadId) : Bool :=
  match mfind s.marked_thread_id_ point with
  | some t => decide (thread_id ≠ t)
  | none => false

/-- The marker-recording loop at the top of `Process`: for every successor the
fired point marks, `marked_thread_id_.emplace(marked_point, thread_id)`. -/
def recordMarkers (s : Impl) (point : String) (thread_id : ThreadId) : Impl :=
  let marked := (mfind s.markers_ point).getD []
  { s with marked_thread_id_ :=
      marked.foldl (fun m q => memplace m q thread_id) s.marked_thread_id_ }

/-- The outcome of one sequential `Process` call.  `blocked` is the state in
which the calling thread parks inside the wait loop (its further behaviour
depends on other threads and is modelled by the small-step semantics);
`fired` carries the invoked callback and its arguments when one is
registered. -/
inductive ProcessOutcome where
  | disabled
  | suppressed
  | blocked
  | fired (invoked : Option (CallbackId × List Nat))
deriving DecidableEq

/-- Sequential `Process`: the exact branch structure of
`SyncPoint::Impl::Process`, for a call that either returns without waiting or
parks in the wait loop. -/
def Process (s : Impl) (point : String) (cb_args : List Nat)
    (thread_id : ThreadId) : Impl × ProcessOutcome :=
  if s.enabled_ = false then (s, .disabled)
  else
    let s1 := recordMarkers s point thread_id
    if DisabledByMarker s1 point thread_id = true then (s1, .suppressed)
    else if PredecessorsAllCleared s1 point = false then (s1, .blocked)
    else
      ({ s1 with cleared_points_ := setInsert s1.cleared_points_ point },
        .fired ((mfind s1.callbacks_ point).map (fun c => (c, cb_args))))

/-! ### Association-list lemmas -/

theorem mfind_massign_self {κ α : Type} [DecidableEq κ] (m : List (κ × α))
    (k : κ) (v : α) : mfind (massign m k v) k = some v := by
  induction m with
  | nil => simp [massign, mfind]
  | cons p rest ih =>
    obtain ⟨k', v'⟩ := p
    by_cases h : k' = k
    · simp [massign, h, mfind]
    · simp [massign, h, mfind, ih]

theorem mfind_massign_ne {κ α : Type} [DecidableEq κ] (m : List (κ × α))
    (k k' : κ) (v : α) (h : k' ≠ k) :
    mfind (massign m k v) k' = mfind m k' := by
  have hne : ¬ k = k' := fun hh => h hh.symm
  induction m with
  | nil => simp [massign, mfind, hne]
  | cons p rest ih =>
    obtain ⟨k0, v0⟩ := p
    by_cases h0 : k0 = k
    · subst h0
      simp [massign, mfind, hne]
    · simp only [massign, h0, if_false, mfind]
      by_cases h1 : k0 = k' <;> simp [h1, ih]

theorem mem_massign {κ α : Type} [DecidableEq κ] (m : List (κ × α))
    (k : κ) (v : α) (p : κ × α) (hp : p ∈ massign m k v) :
    p = (k, v) ∨ p ∈ m := by
  induction m with
  | nil => simp [massign] at hp; simp [hp]
  | cons q rest ih =>
    obtain ⟨k0, v0⟩ := q
    by_cases h0 : k0 = k
    · simp [massign, h0] at hp
      rcases hp with hp | hp
      · exact Or.inl hp
      · exact Or.inr (List.mem_cons_of_mem _ hp)
    · simp [massign, h0] at hp
      rcases hp with hp | hp
      · exact Or.inr (by simp [hp])
      · rcases ih hp with h | h
        · exact Or.inl h
        · exact Or.inr (List.mem_cons_of_mem _ h)

theorem mfind_merase_ne {κ α : Type} [DecidableEq κ] (m : List (κ × α))
    (k k' : κ) (h : k' ≠ k) : mfind (merase m k) k' = mfind m k' := by
  have hne : ¬ k = k' := fun hh => h hh.symm
  induction m with
  | nil => simp [merase]
  | cons p rest ih =>
    obtain ⟨k0, v0⟩ := p
    by_cases h0 : k0 = k
    · subst h0
      simp [merase, mfind, hne]
    · simp only [merase, h0, if_false, mfind]
      by_cases h1 : k0 = k' <;> simp [h1, ih]

theorem mem_merase {κ α : Type} [DecidableEq κ] (m : List (κ × α))
    (k : κ) (p : κ × α) (hp : p ∈ merase m k) : p ∈ m := by
  induction m with
  | nil => simp [merase] at hp
  | cons q rest ih =>
    obtain ⟨k0, v0⟩ := q
    by_cases h0 : k0 = k
    · simp [merase, h0] at hp
      exact List.mem_cons_of_mem _ hp
    · simp [merase, h0] at hp
      rcases hp with hp | hp
      · simp [hp]
      · exact List.mem_cons_of_mem _ (ih hp)

theorem mfind_mem {κ α : Type} [DecidableEq κ] (m : List (κ × α)) (k : κ)
    (v : α) (h : mfind m k = some v) : (k, v) ∈ m := by
  induction m with
  | nil => simp [mfind] at h
  | cons p rest ih =>
    obtain ⟨k0, v0⟩ := p
    by_cases h0 : k0 = k
    · subst h0; simp [mfind] at h; simp [h]
    · simp [mfind, h0] at h
      exact List.mem_cons_of_mem _ (ih h)

theorem mfind_append_some {κ α : Type} [DecidableEq κ] (m m' : List (κ × α))
    (k : κ) (v : α) (h : mfind m k = some v) : mfind (m ++ m') k = some v := by
  induction m with
  | nil => simp [mfind] at h
  | cons p rest ih =>
    obtain ⟨k0, v0⟩ := p
    by_cases h0 : k0 = k
    · simp [mfind, h0] at h ⊢
      simp_all
    · simp [mfind, h0] at h ⊢
      simp_all [ih]

theorem mfind_append_none {κ α : Type} [DecidableEq κ] (m m' : List (κ × α))
    (k : κ) (h : mfind m k = none) : mfind (m ++ m') k = mfind m' k := by
  induction m with
  | nil => simp [mfind]
  | cons p rest ih =>
    obtain ⟨k0, v0⟩ := p
    by_cases h0 : k0 = k
    · simp [mfind, h0] at h
    · simp [mfind, h0] at h ⊢
      simp_all [ih]

theorem mfind_memplace_self {κ α : Type} [DecidableEq κ] (m : List (κ × α))
    (k : κ) (v : α) :
    mfind (memplace m k v) k = some ((mfind m k).getD v) := by
  unfold memplace
  cases h : mfind m k with
  | some w => simp [h]
  | none =>
    simp [h, mfind_append_none m [(k, v)] k h, mfind]

theorem mfind_memplace_ne {κ α : Type} [DecidableEq κ] (m : List (κ × α))
    (k k' : κ) (v : α) (h : k' ≠ k) :
    mfind (memplace m k v) k' = mfind m k' := by
  unfold memplace
  cases h0 : mfind m k with
  | some w => rfl
  | none =>
    cases h1 : mfind m k' with
    | some w => exact mfind_append_some _ _ _ _ h1
    | none =>
      rw [mfind_append_none _ _ _ h1]
      have hne : ¬ k = k' := fun hh => h hh.symm
      simp [mfind, hne]

theorem mfind_memplace_of_some {κ α : Type} [DecidableEq κ] (m : List (κ × α))
    (k k' : κ) (v w : α) (h : mfind m k' = some w) :
    mfind (memplace m k v) k' = some w := by
  by_cases hk : k' = k
  · subst hk; rw [mfind_memplace_self, h]; rfl
  · rw [mfind_memplace_ne _ _ _ _ hk, h]

theorem mfind_foldl_memplace_of_some {α : Type} [DecidableEq α]
    (l : List α) (tid : ThreadId) (q : α) (w : ThreadId) :
    ∀ m : List (α × ThreadId), mfind m q = some w →
      mfind (l.foldl (fun acc r => memplace acc r tid) m) q = some w := by
  induction l with
  | nil => intro m h; simpa using h
  | cons r rest ih =>
    intro m h
    simp only [List.foldl_cons]
    exact ih _ (mfind_memplace_of_some _ _ _ _ _ h)

theorem mfind_foldl_memplace_mem {α : Type} [DecidableEq α]
    (l : List α) (tid : ThreadId) (q : α) (hq : q ∈ l) :
    ∀ m : List (α × ThreadId),
      mfind (l.foldl (fun acc r => memplace acc r tid) m) q =
        some ((mfind m q).getD tid) := by
  induction l with
  | nil => simp at hq
  | cons r rest ih =>
    intro m
    simp only [List.foldl_cons]
    by_cases hqr : q = r
    · subst hqr
      have hb : mfind (memplace m q tid) q = some ((mfind m q).getD tid) :=
        mfind_memplace_self m q tid
      exact mfind_foldl_memplace_of_some rest tid q _ _ hb
    · have hq' : q ∈ rest := by
        rcases List.mem_cons.mp hq with h | h
        · exact absurd h hqr
        · exact h
      rw [ih hq' (memplace m r tid), mfind_memplace_ne m r q tid hqr]

theorem mfind_foldl_memplace_not_mem {α : Type} [DecidableEq α]
    (l : List α) (tid : ThreadId) (q : α) (hq : q ∉ l) :
    ∀ m : List (α × ThreadId),
      mfind (l.foldl (fun acc r => memplace acc r tid) m) q = mfind m q := by
  induction l with
  | nil => intro m; rfl
  | cons r rest ih =>
    intro m
    simp only [List.foldl_cons]
    have hqr : q ≠ r := fun h => hq (by simp [h])
    have hrest : q ∉ rest := fun h => hq (List.mem_cons_of_mem _ h)
    rw [ih hrest, mfind_memplace_ne m r q tid hqr]

theorem mem_setInsert_self (l : List String) (x : String) : x ∈ setInsert l x := by
  unfold setInsert
  by_cases h : x ∈ l <;> simp [h]

theorem mem_setInsert_of_mem (l : List String) (x y : String) (h : y ∈ l) :
    y ∈ setInsert l x := by
  unfold setInsert
  by_cases h0 : x ∈ l <;> simp [h0, h]

theorem mem_setInsert (l : List String) (x y : String)
    (h : y ∈ setInsert l x) : y = x ∨ y ∈ l := by
  unfold setInsert at h
  by_cases h0 : x ∈ l
  · simp [h0] at h; exact Or.inr h
  · simp [h0] at h
    rcases h with h | h
    · exact Or.inr h
    · exact Or.inl h

/-! ### Lemmas about `LoadDependencyAndMarkers` -/

theorem foldl_depStep_frame (l : List SyncPointPair) : ∀ t : Impl,
    (l.foldl depStep t).enabled_ = t.enabled_ ∧
    (l.foldl depStep t).num_callbacks_running_ = t.num_callbacks_running_ ∧
    (l.foldl depStep t).callbacks_ = t.callbacks_ ∧
    (l.foldl depStep t).markers_ = t.markers_ ∧
    (l.foldl depStep t).marked_thread_id_ = t.marked_thread_id_ ∧
    (l.foldl depStep t).cleared_points_ = t.cleared_points_ := by
  induction l with
  | nil => intro t; simp
  | cons d rest ih =>
    intro t
    simpa [depStep] using ih (depStep t d)

theorem foldl_markerStep_frame (l : List SyncPointPair) : ∀ t : Impl,
    (l.foldl markerStep t).enabled_ = t.enabled_ ∧
    (l.foldl markerStep t).num_callbacks_running_ = t.num_callbacks_running_ ∧
    (l.foldl markerStep t).callbacks_ = t.callbacks_ ∧
    (l.foldl markerStep t).marked_thread_id_ = t.marked_thread_id_ ∧
    (l.foldl markerStep t).cleared_points_ = t.cleared_points_ := by
  induction l with
  | nil => intro t; simp
  | cons mk rest ih =>
    intro t
    simpa [markerStep] using ih (markerStep t mk)

theorem load_frame (s : Impl) (deps mks : List SyncPointPair) :
    (LoadDependencyAndMarkers s deps mks).enabled_ = s.enabled_ ∧
    (LoadDependencyAndMarkers s deps mks).num_callbacks_running_ =
      s.num_callbacks_running_ ∧
    (LoadDependencyAndMarkers s deps mks).callbacks_ = s.callbacks_ ∧
    (LoadDependencyAndMarkers s deps mks).marked_thread_id_ = [] ∧
    (LoadDependencyAndMarkers s deps mks).cleared_points_ = [] := by
  unfold LoadDependencyAndMarkers
  obtain ⟨he1, hn1, hc1, hmk1, hmt1, hcl1⟩ := foldl_depStep_frame deps
    { s with successors_ := [], predecessors_ := [], cleared_points_ := [],
             markers_ := [], marked_thread_id_ := [] }
  obtain ⟨he2, hn2, hc2, hmt2, hcl2⟩ := foldl_markerStep_frame mks
    (deps.foldl depStep
      { s with successors_ := [], predecessors_ := [], cleared_points_ := [],
               markers_ := [], marked_thread_id_ := [] })
  refine ⟨?_, ?_, ?_, ?_, ?_⟩
  · rw [he2, he1]
  · rw [hn2, hn1]
  · rw [hc2, hc1]
  · rw [hmt2, hmt1]
  · rw [hcl2, hcl1]

theorem foldl_depStep_graph (l : List SyncPointPair) : ∀ t1 t2 : Impl,
    t1.successors_ = t2.successors_ → t1.predecessors_ = t2.predecessors_ →
    (l.foldl depStep t1).successors_ = (l.foldl depStep t2).successors_ ∧
    (l.foldl depStep t1).predecessors_ = (l.foldl depStep t2).predecessors_ := by
  induction l with
  | nil => intro t1 t2 h1 h2; exact ⟨h1, h2⟩
  | cons d rest ih =>
    intro t1 t2 h1 h2
    exact ih (depStep t1 d) (depStep t2 d) (by simp [depStep, h1])
      (by simp [depStep, h2])

theorem foldl_markerStep_graph (l : List SyncPointPair) : ∀ t1 t2 : Impl,
    t1.successors_ = t2.successors_ → t1.predecessors_ = t2.predecessors_ →
    t1.markers_ = t2.markers_ →
    (l.foldl markerStep t1).successors_ = (l.foldl markerStep t2).successors_ ∧
    (l.foldl markerStep t1).predecessors_ =
      (l.foldl markerStep t2).predecessors_ ∧
    (l.foldl markerStep t1).markers_ = (l.foldl markerStep t2).markers_ := by
  induction l with
  | nil => intro t1 t2 h1 h2 h3; exact ⟨h1, h2, h3⟩
  | cons mk rest ih =>
    intro t1 t2 h1 h2 h3
    exact ih (markerStep t1 mk) (markerStep t2 mk) (by simp [markerStep, h1])
      (by simp [markerStep, h2]) (by simp [markerStep, h3])

/-- The `markers` loop updates `successors_`/`predecessors_` exactly the way the
`dependencies` loop does. -/
theorem foldl_markerStep_vs_depStep (l : List SyncPointPair) : ∀ t1 t2 : Impl,
    t1.successors_ = t2.successors_ → t1.predecessors_ = t2.predecessors_ →
    (l.foldl markerStep t1).successors_ = (l.foldl depStep t2).successors_ ∧
    (l.foldl markerStep t1).predecessors_ = (l.foldl depStep t2).predecessors_ := by
  induction l with
  | nil => intro t1 t2 h1 h2; exact ⟨h1, h2⟩
  | cons mk rest ih =>
    intro t1 t2 h1 h2
    exact ih (markerStep t1 mk) (depStep t2 mk) (by simp [markerStep, depStep, h1])
      (by simp [markerStep, depStep, h2])

theorem mem_mpush_self {κ : Type} [DecidableEq κ] (m : List (κ × List String))
    (k : κ) (v : String) : v ∈ (mfind (mpush m k v) k).getD [] := by
  unfold mpush
  rw [mfind_massign_self]
  simp

theorem mem_mpush_of_mem {κ : Type} [DecidableEq κ] (m : List (κ × List String))
    (k k' : κ) (v a : String) (h : a ∈ (mfind m k).getD []) :
    a ∈ (mfind (mpush m k' v) k).getD [] := by
  unfold mpush
  by_cases hk : k = k'
  · subst hk
    rw [mfind_massign_self]
    cases h0 : mfind m k with
    | some l => simp [h0] at h ⊢; exact Or.inl h
    | none => simp [h0] at h
  · rw [mfind_massign_ne _ _ _ _ hk]
    exact h

theorem foldl_markerStep_predmem_mono (l : List SyncPointPair) : ∀ (t : Impl)
    (a k : String), a ∈ (mfind t.predecessors_ k).getD [] →
    a ∈ (mfind (l.foldl markerStep t).predecessors_ k).getD [] := by
  induction l with
  | nil => intro t a k h; exact h
  | cons mk rest ih =>
    intro t a k h
    exact ih (markerStep t mk) a k (mem_mpush_of_mem _ _ _ _ _ h)

theorem foldl_markerStep_succmem_mono (l : List SyncPointPair) : ∀ (t : Impl)
    (a k : String), a ∈ (mfind t.successors_ k).getD [] →
    a ∈ (mfind (l.foldl markerStep t).successors_ k).getD [] := by
  induction l with
  | nil => intro t a k h; exact h
  | cons mk rest ih =>
    intro t a k h
    exact ih (markerStep t mk) a k (mem_mpush_of_mem _ _ _ _ _ h)

theorem foldl_markerStep_mem (l : List SyncPointPair) : ∀ (t : Impl)
    (mk : SyncPointPair), mk ∈ l →
    mk.predecessor ∈
        (mfind (l.foldl markerStep t).predecessors_ mk.successor).getD [] ∧
    mk.successor ∈
        (mfind (l.foldl markerStep t).successors_ mk.predecessor).getD [] := by
  induction l with
  | nil => intro t mk h; simp at h
  | cons hd rest ih =>
    intro t mk h
    rcases List.mem_cons.mp h with h | h
    · subst h
      constructor
      · exact foldl_markerStep_predmem_mono rest (markerStep t mk) _ _
          (by simpa [markerStep] using mem_mpush_self t.predecessors_ mk.successor mk.predecessor)
      · exact foldl_markerStep_succmem_mono rest (markerStep t mk) _ _
          (by simpa [markerStep] using mem_mpush_self t.successors_ mk.predecessor mk.successor)
    · exact ih (markerStep t hd) mk h

/-! ### Claim theorems: sequential operations -/

/-- Claim C7: while the enabled flag is false, `Process` is a complete no-op —
it returns immediately with outcome `disabled`, invokes no callback, and leaves
the whole `Impl` state (cleared points, marker records, graph indices, callback
registry, counters) exactly as it was. -/
theorem C7_disabled_noop (s : Impl) (point : String) (cb_args : List Nat)
    (thread_id : ThreadId) (h : s.enabled_ = false) :
    Process s point cb_args thread_id = (s, ProcessOutcome.disabled) := by
  simp [Process, h]

/-- Witness for C7 at a concrete disabled state. -/
theorem C7_witness :
    Process initImpl "P" [] 1 = (initImpl, ProcessOutcome.disabled) :=
  C7_disabled_noop initImpl "P" [] 1 rfl

/-- Claim C9: `ClearTrace` empties exactly the cleared-points set; the
dependency indices, marker index, marked-thread records, callback registry,
in-flight counter and enabled flag are all unchanged. -/
theorem C9_cleartrace_frame (s : Impl) :
    (ClearTrace s).cleared_points_ = [] ∧
    (ClearTrace s).enabled_ = s.enabled_ ∧
    (ClearTrace s).num_callbacks_running_ = s.num_callbacks_running_ ∧
    (ClearTrace s).successors_ = s.successors_ ∧
    (ClearTrace s).predecessors_ = s.predecessors_ ∧
    (ClearTrace s).callbacks_ = s.callbacks_ ∧
    (ClearTrace s).markers_ = s.markers_ ∧
    (ClearTrace s).marked_thread_id_ = s.marked_thread_id_ := by
  simp [ClearTrace]

/-- Claim C10: `LoadDependencyAndMarkers` leaves the callback registry, the
enabled flag and the in-flight counter unchanged, for every prior state and
every input. -/
theorem C10_load_preserves_callbacks_enabled (s : Impl)
    (deps mks : List SyncPointPair) :
    (LoadDependencyAndMarkers s deps mks).callbacks_ = s.callbacks_ ∧
    (LoadDependencyAndMarkers s deps mks).enabled_ = s.enabled_ ∧
    (LoadDependencyAndMarkers s deps mks).num_callbacks_running_ =
      s.num_callbacks_running_ := by
  obtain ⟨he, hn, hc, _, _⟩ := load_frame s deps mks
  exact ⟨hc, he, hn⟩

/-- Claim C5: `LoadDependencyAndMarkers` replaces the entire graph state in one
step: the successor index, predecessor index and marker index after the call
are determined by the supplied dependencies and markers alone (identical for
any two prior states), and the marked-thread records and cleared-points set
are empty. -/
theorem C5_load_replaces_graph (s1 s2 : Impl) (deps mks : List SyncPointPair) :
    (LoadDependencyAndMarkers s1 deps mks).successors_ =
      (LoadDependencyAndMarkers s2 deps mks).successors_ ∧
    (LoadDependencyAndMarkers s1 deps mks).predecessors_ =
      (LoadDependencyAndMarkers s2 deps mks).predecessors_ ∧
    (LoadDependencyAndMarkers s1 deps mks).markers_ =
      (LoadDependencyAndMarkers s2 deps mks).markers_ ∧
    (LoadDependencyAndMarkers s1 deps mks).marked_thread_id_ = [] ∧
    (LoadDependencyAndMarkers s1 deps mks).cleared_points_ = [] := by
  unfold LoadDependencyAndMarkers
  obtain ⟨hs, hp⟩ := foldl_depStep_graph deps
    { s1 with successors_ := [], predecessors_ := [], cleared_points_ := [],
              markers_ := [], marked_thread_id_ := [] }
    { s2 with successors_ := [], predecessors_ := [], cleared_points_ := [],
              markers_ := [], marked_thread_id_ := [] } rfl rfl
  have hm : (deps.foldl depStep
      { s1 with successors_ := [], predecessors_ := [], cleared_points_ := [],
                markers_ := [], marked_thread_id_ := [] }).markers_ =
      (deps.foldl depStep
      { s2 with successors_ := [], predecessors_ := [], cleared_points_ := [],
                markers_ := [], marked_thread_id_ := [] }).markers_ := by
    rw [(foldl_depStep_frame deps _).2.2.2.1, (foldl_depStep_frame deps _).2.2.2.1]
  obtain ⟨hs', hp', hm'⟩ := foldl_markerStep_graph mks _ _ hs hp hm
  have hfr := load_frame s1 deps mks
  unfold LoadDependencyAndMarkers at hfr
  exact ⟨hs', hp', hm', hfr.2.2.2.1, hfr.2.2.2.2⟩

/-- Claim C4: every marker pair is also entered into both dependency indices:
after the call the marked successor's predecessor list contains the marker
predecessor, the marker predecessor's successor list contains the marked
successor, and the two dependency indices are exactly those produced by
appending the marker pairs to the dependencies list. -/
theorem C4_marker_adds_dependency (s : Impl) (deps mks : List SyncPointPair)
    (mk : SyncPointPair) (hmk : mk ∈ mks) :
    mk.predecessor ∈
      (mfind (LoadDependencyAndMarkers s deps mks).predecessors_
        mk.successor).getD [] ∧
    mk.successor ∈
      (mfind (LoadDependencyAndMarkers s deps mks).successors_
        mk.predecessor).getD [] ∧
    (LoadDependencyAndMarkers s deps mks).successors_ =
      (LoadDependencyAndMarkers s (deps ++ mks) []).successors_ ∧
    (LoadDependencyAndMarkers s deps mks).predecessors_ =
      (LoadDependencyAndMarkers s (deps ++ mks) []).predecessors_ := by
  unfold LoadDependencyAndMarkers
  obtain ⟨h1, h2⟩ := foldl_markerStep_mem mks
    (deps.foldl depStep
      { s with successors_ := [], predecessors_ := [], cleared_points_ := [],
               markers_ := [], marked_thread_id_ := [] }) mk hmk
  obtain ⟨h3, h4⟩ := foldl_markerStep_vs_depStep mks
    (deps.foldl depStep
      { s with successors_ := [], predecessors_ := [], cleared_points_ := [],
               markers_ := [], marked_thread_id_ := [] })
    (deps.foldl depStep
      { s with successors_ := [], predecessors_ := [], cleared_points_ := [],
               markers_ := [], marked_thread_id_ := [] }) rfl rfl
  simp only [List.foldl_nil, List.foldl_append]
  exact ⟨h1, h2, h3, h4⟩

/-- Witness for C4 on a concrete load with one dependency and one marker. -/
theorem C4_witness :
    "M" ∈ (mfind (LoadDependencyAndMarkers initImpl [⟨"A", "B"⟩]
        [⟨"M", "S"⟩]).predecessors_ "S").getD [] ∧
    "S" ∈ (mfind (LoadDependencyAndMarkers initImpl [⟨"A", "B"⟩]
        [⟨"M", "S"⟩]).successors_ "M").getD [] ∧
    (LoadDependencyAndMarkers initImpl [⟨"A", "B"⟩] [⟨"M", "S"⟩]).successors_ =
      (LoadDependencyAndMarkers initImpl [⟨"A", "B"⟩, ⟨"M", "S"⟩] []).successors_ ∧
    (LoadDependencyAndMarkers initImpl [⟨"A", "B"⟩] [⟨"M", "S"⟩]).predecessors_ =
      (LoadDependencyAndMarkers initImpl [⟨"A", "B"⟩, ⟨"M", "S"⟩] []).predecessors_ := by
  have h := C4_marker_adds_dependency initImpl [⟨"A", "B"⟩] [⟨"M", "S"⟩]
    ⟨"M", "S"⟩ (by simp)
  simpa using h

/-- Claim C8: once a point is in the cleared-points set it stays there across
`Process`, `SetCallBack`, `ClearCallBack`, `ClearAllCallBacks`,
`EnableProcessing` and `DisableProcessing`; only `ClearTrace` and
`LoadDependencyAndMarkers` empty the set. -/
theorem C8_cleared_monotone (s : Impl) (p : String) (h : p ∈ s.cleared_points_) :
    (∀ q cb_args tid, p ∈ (Process s q cb_args tid).1.cleared_points_) ∧
    (∀ q cb, p ∈ (SetCallBack s q cb).cleared_points_) ∧
    (∀ q, p ∈ (ClearCallBack s q).cleared_points_) ∧
    p ∈ (ClearAllCallBacks s).cleared_points_ ∧
    p ∈ (EnableProcessing s).cleared_points_ ∧
    p ∈ (DisableProcessing s).cleared_points_ ∧
    (ClearTrace s).cleared_points_ = [] ∧
    (∀ deps mks, (LoadDependencyAndMarkers s deps mks).cleared_points_ = []) := by
  refine ⟨?_, fun q cb => h, fun q => h, h, h, h, rfl,
    fun deps mks => (load_frame s deps mks).2.2.2.2⟩
  intro q cb_args tid
  simp only [Process]
  split
  · exact h
  · split
    · simpa using h
    · split
      · simpa using h
      · simpa using mem_setInsert_of_mem s.cleared_points_ q p h

/-- Witness for C8 at a state in which point `A` has cleared. -/
theorem C8_witness :
    "A" ∈ (SetCallBack (Process (EnableProcessing initImpl) "A" [] 1).1
      "X" 3).cleared_points_ :=
  (C8_cleared_monotone (Process (EnableProcessing initImpl) "A" [] 1).1 "A"
    (by decide)).2.1 "X" 3

/-- An enabled `Process` call leaves `marked_thread_id_` exactly as the
marker-recording loop wrote it, on every branch. -/
theorem process_marked_eq (s : Impl) (point : String) (cb_args : List Nat)
    (tid : ThreadId) (he : s.enabled_ = true) :
    (Process s point cb_args tid).1.marked_thread_id_ =
      (recordMarkers s point tid).marked_thread_id_ := by
  have he' : (s.enabled_ = false) = False := by simp [he]
  simp only [Process, he', if_false]
  split
  · simp [recordMarkers]
  · split <;> simp [recordMarkers]

/-- A state in which the marker predecessor `M` (marking `S`) has already been
fired once by thread `1`. -/
def sC1 : Impl :=
  (Process (LoadDependencyAndMarkers (EnableProcessing initImpl) []
    [⟨"M", "S"⟩]) "M" [] 1).1

/-- Counterexample to claim C1 as stated: the source records marking threads
with `marked_thread_id_.emplace(...)`, which does not overwrite an existing
record.  After marker predecessor `M` (marking `S`) fires on thread `1` and
again on thread `2`, the record for `S` is still thread `1`, not the most
recent marking thread `2` the claim requires. -/
theorem C1_counterexample :
    mfind (Process sC1 "M" [] 2).1.marked_thread_id_ "S" = some 1 ∧
    (1 : ThreadId) ≠ 2 := by decide

/-- Claim C1 amended: when `Process` is called on a marker predecessor while
processing is enabled, it records the calling thread's identity against every
successor the point marks that has no prior record; a successor with an
existing record keeps it (first marking wins), so suppression of a marked
successor is evaluated against the earliest recorded marking thread since the
last reload, not the most recent one. -/
theorem C1_amended_first_marking_wins (s : Impl) (point : String)
    (cb_args : List Nat) (tid : ThreadId) (he : s.enabled_ = true) (q : String)
    (hq : q ∈ (mfind s.markers_ point).getD []) :
    mfind (Process s point cb_args tid).1.marked_thread_id_ q =
      some ((mfind s.marked_thread_id_ q).getD tid) := by
  rw [process_marked_eq s point cb_args tid he]
  simp only [recordMarkers]
  exact mfind_foldl_memplace_mem _ tid q hq s.marked_thread_id_

/-- Witness for the amended C1 on a fresh marker: firing `M` on thread `5`
records thread `5` for the unmarked successor `S`. -/
theorem C1_witness :
    mfind (Process (LoadDependencyAndMarkers (EnableProcessing initImpl) []
      [⟨"M", "S"⟩]) "M" [] 5).1.marked_thread_id_ "S" = some 5 := by
  have h := C1_amended_first_marking_wins
    (LoadDependencyAndMarkers (EnableProcessing initImpl) [] [⟨"M", "S"⟩])
    "M" [] 5 (by decide) "S" (by decide)
  simpa using h

/-- A suppressed `Process` call returns the state produced by the
marker-recording loop. -/
theorem process_suppressed_state (s : Impl) (point : String)
    (cb_args : List Nat) (tid : ThreadId)
    (h : (Process s point cb_args tid).2 = ProcessOutcome.suppressed) :
    (Process s point cb_args tid).1 = recordMarkers s point tid := by
  by_cases he : s.enabled_ = false
  · exfalso; simp [Process, he] at h
  · have he' : (s.enabled_ = false) = False := by simp [he]
    simp only [Process, he', if_false] at h ⊢
    split at h
    · rename_i hd
      rw [if_pos hd]
    · rename_i hd
      split at h <;> simp at h

/-- A state (graph: marker edges `P → S` and `Q → P`) in which thread `1` has
fired `Q`, so `P` is a marked successor recorded to thread `1`, while `P` is
itself a marker predecessor of `S`. -/
def sC2 : Impl :=
  (Process (LoadDependencyAndMarkers (EnableProcessing initImpl) []
    [⟨"P", "S"⟩, ⟨"Q", "P"⟩]) "Q" [] 1).1

/-- Counterexample to claim C2 as stated: `P` is a marked successor recorded to
thread `1`, and thread `2`'s firing of `P` is suppressed — yet the call does
not leave the state exactly as it was: the marker-recording loop runs before
the suppression check, so the suppressed call still records thread `2` against
`P`'s own marked successor `S`. -/
theorem C2_counterexample :
    mfind sC2.marked_thread_id_ "P" = some 1 ∧
    (1 : ThreadId) ≠ 2 ∧
    (Process sC2 "P" [] 2).2 = ProcessOutcome.suppressed ∧
    (Process sC2 "P" [] 2).1 ≠ sC2 ∧
    mfind (Process sC2 "P" [] 2).1.marked_thread_id_ "S" = some 2 ∧
    mfind sC2.marked_thread_id_ "S" = none := by decide

/-- Claim C2 amended: a suppressed firing returns without adding the point to
the cleared-points set, without invoking the point's callback, and leaves every
state component unchanged except the marked-thread records: if the suppressed
point is itself a marker predecessor, the marker-recording loop (which runs
before the suppression check) may record the calling thread against the
point's own marked successors that had no prior record; all existing
marked-thread records survive unchanged. -/
theorem C2_amended_suppressed_frame (s : Impl) (point : String)
    (cb_args : List Nat) (tid : ThreadId)
    (h : (Process s point cb_args tid).2 = ProcessOutcome.suppressed) :
    (Process s point cb_args tid).1.cleared_points_ = s.cleared_points_ ∧
    (Process s point cb_args tid).1.callbacks_ = s.callbacks_ ∧
    (Process s point cb_args tid).1.successors_ = s.successors_ ∧
    (Process s point cb_args tid).1.predecessors_ = s.predecessors_ ∧
    (Process s point cb_args tid).1.markers_ = s.markers_ ∧
    (Process s point cb_args tid).1.enabled_ = s.enabled_ ∧
    (Process s point cb_args tid).1.num_callbacks_running_ =
      s.num_callbacks_running_ ∧
    (∀ q, q ∉ (mfind s.markers_ point).getD [] →
      mfind (Process s point cb_args tid).1.marked_thread_id_ q =
        mfind s.marked_thread_id_ q) ∧
    (∀ q w, mfind s.marked_thread_id_ q = some w →
      mfind (Process s point cb_args tid).1.marked_thread_id_ q = some w) := by
  rw [process_suppressed_state s point cb_args tid h]
  refine ⟨rfl, rfl, rfl, rfl, rfl, rfl, rfl, ?_, ?_⟩
  · intro q hq
    simp only [recordMarkers]
    exact mfind_foldl_memplace_not_mem _ tid q hq s.marked_thread_id_
  · intro q w hw
    simp only [recordMarkers]
    exact mfind_foldl_memplace_of_some _ tid q w s.marked_thread_id_ hw

/-- Witness for the amended C2 at the concrete suppressed firing of `sC2`. -/
theorem C2_witness :
    (Process sC2 "P" [] 2).1.cleared_points_ = sC2.cleared_points_ ∧
    mfind (Process sC2 "P" [] 2).1.marked_thread_id_ "P" = some 1 := by
  have h := C2_amended_suppressed_frame sC2 "P" [] 2 (by decide)
  exact ⟨h.1, h.2.2.2.2.2.2.2.2 "P" 1 (by decide)⟩

/-! ### Small-step interleaving semantics

A thread inside `Process` (past the enabled gate and the marker-recording
loop) is a task.  `waiting` is the wait loop; `running` is the region between
leaving the wait loop and re-acquiring the lock after the callback (the code
releases the lock around the callback body).  Each step is one lock-protected
critical section of the source. -/

inductive TPhase where
  | waiting
  | running
deriving DecidableEq

structure PTask where
  point : String
  tid : ThreadId
  phase : TPhase
  hasCb : Bool
deriving DecidableEq

/-- Ghost log of observable events: `wakeObs p` is emitted when a task for `p`
leaves the wait loop (the instant its callback, if registered, is invoked);
`clearedObs p` when `p` is inserted into the cleared-points set. -/
inductive Obs where
  | wakeObs (point : String)
  | clearedObs (point : String)
deriving DecidableEq

structure Config where
  st : Impl
  tasks : List (Nat × PTask)
  log : List Obs
deriving DecidableEq

inductive PEvent where
  | enable
  | disable
  | setCallBack (point : String) (cb : CallbackId)
  | clearCallBack (point : String)
  | clearAllCallBacks
  | clearTrace
  | start (id : Nat) (point : String) (tid : ThreadId)
  | wake (id : Nat)
  | suppress (id : Nat)
  | finish (id : Nat)
deriving DecidableEq

/-- One interleaved step.  `start` is the prefix of `Process` up to and
including the first `DisabledByMarker` check (an immediately suppressed call
returns without creating a task); `wake` is the exit of the wait loop — legal
only when every predecessor is cleared and the marker check passes, exactly
the exit condition of the source's loop — and increments the in-flight counter
when a callback is registered, as the source does; `suppress` is the
post-wait marker re-check returning early; `finish` re-acquires the lock,
decrements the counter, inserts the point into the cleared set and
broadcasts.  `clearCallBack`/`clearAllCallBacks` steps are enabled only when
no callback is in flight, which is the source's wait-for-zero loop. -/
def pstep (c : Config) (e : PEvent) : Option Config :=
  match e with
  | .enable => some { c with st := EnableProcessing c.st }
  | .disable => some { c with st := DisableProcessing c.st }
  | .setCallBack point cb => some { c with st := SetCallBack c.st point cb }
  | .clearCallBack point =>
      if c.st.num_callbacks_running_ = 0 then
        some { c with st := ClearCallBack c.st point }
      else none
  | .clearAllCallBacks =>
      if c.st.num_callbacks_running_ = 0 then
        some { c with st := ClearAllCallBacks c.st }
      else none
  | .clearTrace => some { c with st := ClearTrace c.st }
  | .start id point tid =>
      if (mfind c.tasks id).isSome then none
      else if c.st.enabled_ = false then none
      else
        let s1 := recordMarkers c.st point tid
        if DisabledByMarker s1 point tid = true then some { c with st := s1 }
        else some { c with
          st := s1,
          tasks := (id, ⟨point, tid, .waiting, false⟩) :: c.tasks }
  | .wake id =>
      match mfind c.tasks id with
      | none => none
      | some t =>
          if t.phase = TPhase.waiting ∧
              DisabledByMarker c.st t.point t.tid = false ∧
              PredecessorsAllCleared c.st t.point = true then
            let hasCb := (mfind c.st.callbacks_ t.point).isSome
            some { c with
              st := { c.st with num_callbacks_running_ :=
                c.st.num_callbacks_running_ + (if hasCb then 1 else 0) },
              tasks := massign c.tasks id
                { t with phase := .running, hasCb := hasCb },
              log := c.log ++ [Obs.wakeObs t.point] }
          else none
  | .suppress id =>
      match mfind c.tasks id with
      | none => none
      | some t =>
          if t.phase = TPhase.waiting ∧
              DisabledByMarker c.st t.point t.tid = true then
            some { c with tasks := merase c.tasks id }
          else none
  | .finish id =>
      match mfind c.tasks id with
      | none => none
      | some t =>
          if t.phase = TPhase.running then
            some { c with
              st := { c.st with
                num_callbacks_running_ :=
                  c.st.num_callbacks_running_ - (if t.hasCb then 1 else 0),
                cleared_points_ := setInsert c.st.cleared_points_ t.point },
              tasks := merase c.tasks id,
              log := c.log ++ [Obs.clearedObs t.point] }
          else none

/-- Execute a list of events. -/
def runTrace (c : Config) : List PEvent → Option Config
  | [] => some c
  | e :: es => (pstep c e).bind (fun c1 => runTrace c1 es)

/-- An execution: every event is a legal step. -/
inductive Steps : Config → List PEvent → Config → Prop where
  | nil (c : Config) : Steps c [] c
  | cons {c c1 c2 : Config} {e : PEvent} {es : List PEvent} :
      pstep c e = some c1 → Steps c1 es c2 → Steps c (e :: es) c2

theorem Steps_of_run {c c' : Config} {tr : List PEvent}
    (h : runTrace c tr = some c') : Steps c tr c' := by
  induction tr generalizing c with
  | nil =>
    have h' : some c = some c' := h
    injection h' with hh
    rw [← hh]
    exact Steps.nil c
  | cons e es ih =>
    simp only [runTrace] at h
    cases heq : pstep c e with
    | none => rw [heq] at h; simp at h
    | some c1 =>
      rw [heq] at h
      exact Steps.cons heq (ih h)

/-! ### Happens-before: invariants of reachable configurations -/

theorem append_singleton_decomp {α : Type} (l : List α) (e : α) :
    ∀ (l1 : List α) (x : α) (l2 : List α), l ++ [e] = l1 ++ x :: l2 →
      (l1 = l ∧ x = e ∧ l2 = []) ∨
        ∃ l2', l2 = l2' ++ [e] ∧ l = l1 ++ x :: l2' := by
  induction l with
  | nil =>
    intro l1 x l2 h
    cases l1 with
    | nil =>
      injection h with h1 h2
      exact Or.inl ⟨rfl, h1.symm, h2.symm⟩
    | cons z l1' =>
      injection h with h1 h2
      exact absurd h2.symm (by simp)
  | cons y l ih =>
    intro l1 x l2 h
    cases l1 with
    | nil =>
      rw [List.cons_append] at h
      injection h with h1 h2
      exact Or.inr ⟨l, h2.symm, by simp [h1]⟩
    | cons z l1' =>
      rw [List.cons_append] at h
      injection h with h1 h2
      rcases ih l1' x l2 h2 with ⟨ha, hb, hc⟩ | ⟨l2', hd, he⟩
      · exact Or.inl ⟨by simp [h1, ha], hb, hc⟩
      · exact Or.inr ⟨l2', hd, by simp [h1, he]⟩

theorem predecessorsAllCleared_mem (s : Impl) (point q : String)
    (h : PredecessorsAllCleared s point = true)
    (hq : q ∈ (mfind s.predecessors_ point).getD []) :
    q ∈ s.cleared_points_ := by
  unfold PredecessorsAllCleared at h
  rw [List.all_eq_true] at h
  exact of_decide_eq_true (h q hq)

/-- `a` is a direct predecessor of `b` in the loaded graph. -/
def directPred (preds : List (String × List String)) (a b : String) : Prop :=
  a ∈ (mfind preds b).getD []

/-- `b` depends directly or transitively on `a`. -/
def DependsOn (preds : List (String × List String)) (a b : String) : Prop :=
  Relation.TransGen (directPred preds) a b

/-- Invariant of configurations reachable from a clean start over a fixed
graph: the predecessor index never changes; every cleared point was logged as
cleared; every running task logged its wake; every logged wake was preceded by
the clearing of all its predecessors; every logged clearing was preceded by
the wake of the same point. -/
structure GoodCfg (preds : List (String × List String)) (c : Config) : Prop where
  preds_eq : c.st.predecessors_ = preds
  cleared_logged : ∀ x, x ∈ c.st.cleared_points_ → Obs.clearedObs x ∈ c.log
  running_logged : ∀ p ∈ c.tasks, p.2.phase = TPhase.running →
    Obs.wakeObs p.2.point ∈ c.log
  wake_preds : ∀ (l1 : List Obs) (p : String) (l2 : List Obs),
    c.log = l1 ++ Obs.wakeObs p :: l2 →
    ∀ q ∈ (mfind preds p).getD [], Obs.clearedObs q ∈ l1
  cleared_wake : ∀ (l1 : List Obs) (p : String) (l2 : List Obs),
    c.log = l1 ++ Obs.clearedObs p :: l2 → Obs.wakeObs p ∈ l1

theorem good_st_update {preds : List (String × List String)} {c : Config}
    (hg : GoodCfg preds c) (st' : Impl)
    (hp : st'.predecessors_ = c.st.predecessors_)
    (hc : ∀ x, x ∈ st'.cleared_points_ → x ∈ c.st.cleared_points_) :
    GoodCfg preds { st := st', tasks := c.tasks, log := c.log } :=
  ⟨hp.trans hg.preds_eq, fun x hx => hg.cleared_logged x (hc x hx),
    hg.running_logged, hg.wake_preds, hg.cleared_wake⟩

theorem good_init (c : Config) (htasks : c.tasks = []) (hlog : c.log = [])
    (hcleared : c.st.cleared_points_ = []) :
    GoodCfg c.st.predecessors_ c := by
  refine ⟨rfl, ?_, ?_, ?_, ?_⟩
  · intro x hx
    rw [hcleared] at hx
    simp at hx
  · intro p hp
    rw [htasks] at hp
    simp at hp
  · intro l1 p l2 hl
    rw [hlog] at hl
    exact absurd hl.symm (by simp)
  · intro l1 p l2 hl
    rw [hlog] at hl
    exact absurd hl.symm (by simp)

theorem pstep_good {preds : List (String × List String)} {c c' : Config}
    {e : PEvent} (hg : GoodCfg preds c) (h : pstep c e = some c') :
    GoodCfg preds c' := by
  cases e with
  | enable =>
    simp only [pstep, Option.some.injEq] at h
    subst h
    exact good_st_update hg _ rfl (fun x hx => hx)
  | disable =>
    simp only [pstep, Option.some.injEq] at h
    subst h
    exact good_st_update hg _ rfl (fun x hx => hx)
  | setCallBack point cb =>
    simp only [pstep, Option.some.injEq] at h
    subst h
    exact good_st_update hg _ rfl (fun x hx => hx)
  | clearCallBack point =>
    simp only [pstep] at h
    split at h
    · simp only [Option.some.injEq] at h
      subst h
      exact good_st_update hg _ rfl (fun x hx => hx)
    · simp at h
  | clearAllCallBacks =>
    simp only [pstep] at h
    split at h
    · simp only [Option.some.injEq] at h
      subst h
      exact good_st_update hg _ rfl (fun x hx => hx)
    · simp at h
  | clearTrace =>
    simp only [pstep, Option.some.injEq] at h
    subst h
    exact good_st_update hg _ rfl (fun x hx => absurd hx (List.not_mem_nil x))
  | start id point tid =>
    simp only [pstep] at h
    split at h
    · simp at h
    · split at h
      · simp at h
      · split at h
        · simp only [Option.some.injEq] at h
          subst h
          exact good_st_update hg _ rfl (fun x hx => hx)
        · simp only [Option.some.injEq] at h
          subst h
          refine ⟨hg.preds_eq, hg.cleared_logged, ?_, hg.wake_preds,
            hg.cleared_wake⟩
          intro p hp hrp
          rcases List.mem_cons.mp hp with heq | hmem
          · subst heq
            simp at hrp
          · exact hg.running_logged p hmem hrp
  | wake id =>
    simp only [pstep] at h
    split at h
    · simp at h
    · rename_i t hmf
      split at h
      · rename_i hcond
        obtain ⟨hph, hdm, hpc⟩ := hcond
        simp only [Option.some.injEq] at h
        subst h
        refine ⟨hg.preds_eq, ?_, ?_, ?_, ?_⟩
        · intro x hx
          exact List.mem_append_left _ (hg.cleared_logged x hx)
        · intro p hp hrp
          rcases mem_massign c.tasks id _ p hp with heq | hmem
          · subst heq
            simp
          · exact List.mem_append_left _ (hg.running_logged p hmem hrp)
        · intro l1 p l2 hl q hq
          rcases append_singleton_decomp c.log (Obs.wakeObs t.point) l1 _ l2 hl
            with ⟨h1, h2, h3⟩ | ⟨l2', hd2, he2⟩
          · injection h2 with hp2
            subst h1
            rw [hp2] at hq
            have hq' : q ∈ (mfind c.st.predecessors_ t.point).getD [] := by
              rw [hg.preds_eq]
              exact hq
            exact hg.cleared_logged q
              (predecessorsAllCleared_mem c.st t.point q hpc hq')
          · exact hg.wake_preds l1 p l2' he2 q hq
        · intro l1 p l2 hl
          rcases append_singleton_decomp c.log (Obs.wakeObs t.point) l1 _ l2 hl
            with ⟨h1, h2, h3⟩ | ⟨l2', hd2, he2⟩
          · exact absurd h2 (by simp)
          · exact hg.cleared_wake l1 p l2' he2
      · simp at h
  | suppress id =>
    simp only [pstep] at h
    split at h
    · simp at h
    · rename_i t hmf
      split at h
      · simp only [Option.some.injEq] at h
        subst h
        refine ⟨hg.preds_eq, hg.cleared_logged, ?_, hg.wake_preds,
          hg.cleared_wake⟩
        intro p hp hrp
        exact hg.running_logged p (mem_merase _ _ p hp) hrp
      · simp at h
  | finish id =>
    simp only [pstep] at h
    split at h
    · simp at h
    · rename_i t hmf
      split at h
      · rename_i hph
        simp only [Option.some.injEq] at h
        subst h
        refine ⟨hg.preds_eq, ?_, ?_, ?_, ?_⟩
        · intro x hx
          rcases mem_setInsert _ _ _ hx with hx1 | hx2
          · subst hx1
            simp
          · exact List.mem_append_left _ (hg.cleared_logged x hx2)
        · intro p hp hrp
          exact List.mem_append_left _
            (hg.running_logged p (mem_merase _ _ p hp) hrp)
        · intro l1 p l2 hl q hq
          rcases append_singleton_decomp c.log (Obs.clearedObs t.point) l1 _ l2
            hl with ⟨h1, h2, h3⟩ | ⟨l2', hd2, he2⟩
          · exact absurd h2 (by simp)
          · exact hg.wake_preds l1 p l2' he2 q hq
        · intro l1 p l2 hl
          rcases append_singleton_decomp c.log (Obs.clearedObs t.point) l1 _ l2
            hl with ⟨h1, h2, h3⟩ | ⟨l2', hd2, he2⟩
          · injection h2 with hp2
            subst hp2
            subst h1
            exact hg.running_logged (id, t) (mfind_mem _ _ _ hmf) hph
          · exact hg.cleared_wake l1 p l2' he2
      · simp at h

theorem steps_good {preds : List (String × List String)} {init fin : Config}
    {tr : List PEvent} (hrun : Steps init tr fin) (hg : GoodCfg preds init) :
    GoodCfg preds fin := by
  induction hrun with
  | nil c => exact hg
  | cons hstep hrest ih => exact ih (pstep_good hg hstep)

/-- In any log satisfying the two `GoodCfg` log invariants, every wake of `b`
is preceded by a clearing of each point `b` transitively depends on. -/
theorem log_wake_cleared_before {preds : List (String × List String)}
    {log : List Obs}
    (hwp : ∀ (l1 : List Obs) (p : String) (l2 : List Obs),
      log = l1 ++ Obs.wakeObs p :: l2 →
      ∀ q ∈ (mfind preds p).getD [], Obs.clearedObs q ∈ l1)
    (hcw : ∀ (l1 : List Obs) (p : String) (l2 : List Obs),
      log = l1 ++ Obs.clearedObs p :: l2 → Obs.wakeObs p ∈ l1)
    {a b : String} (hdep : DependsOn preds a b) :
    ∀ (l1 l2 : List Obs), log = l1 ++ Obs.wakeObs b :: l2 →
      Obs.clearedObs a ∈ l1 := by
  induction hdep with
  | single hab =>
    intro l1 l2 hl
    exact hwp l1 _ l2 hl a hab
  | tail hamid hmidb ih =>
    rename_i mid b'
    intro l1 l2 hl
    have hmid : Obs.clearedObs mid ∈ l1 := hwp l1 b' l2 hl mid hmidb
    obtain ⟨m1, m2, hm⟩ := List.append_of_mem hmid
    have hlog2 : log = m1 ++ Obs.clearedObs mid :: (m2 ++ Obs.wakeObs b' :: l2) := by
      rw [hl, hm]
      simp
    have hwake : Obs.wakeObs mid ∈ m1 := hcw m1 mid _ hlog2
    obtain ⟨n1, n2, hn⟩ := List.append_of_mem hwake
    have hlog3 : log = n1 ++ Obs.wakeObs mid ::
        (n2 ++ Obs.clearedObs mid :: (m2 ++ Obs.wakeObs b' :: l2)) := by
      rw [hlog2, hn]
      simp
    have ha : Obs.clearedObs a ∈ n1 := ih n1 _ hlog3
    rw [hm, hn]
    exact List.mem_append_left _ (List.mem_append_left _ ha)

/-- A clean configuration over a loaded dependency graph, processing enabled:
the start of one test run. -/
def cfgFor (deps : List SyncPointPair) : Config :=
  { st := LoadDependencyAndMarkers (EnableProcessing initImpl) deps []
    tasks := []
    log := [] }

/-- A configuration whose graph has no edges at all. -/
def cfgU : Config := cfgFor []

/-- Fire `X` to completion, then `Y` to completion. -/
def traceXY : List PEvent :=
  [.start 0 "X" 1, .wake 0, .finish 0, .start 1 "Y" 2, .wake 1, .finish 1]

/-- Fire `Y` to completion, then `X` to completion. -/
def traceYX : List PEvent :=
  [.start 0 "Y" 2, .wake 0, .finish 0, .start 1 "X" 1, .wake 1, .finish 1]

def finalXY : Config := (runTrace cfgU traceXY).getD cfgU

def finalYX : Config := (runTrace cfgU traceYX).getD cfgU

/-- Claim C3: in every execution from a clean start over a fixed graph, if `b`
depends directly or transitively on `a`, then every wake of a `b` task (the
instant `b`'s callback is invoked) and every clearing of `b` is strictly
preceded in the event log by a clearing of `a`; and for points with no
ordering relation no order is guaranteed — both completion orders of the
unrelated points `X` and `Y` are realizable executions. -/
theorem C3_happens_before (init final : Config) (trace : List PEvent)
    (hrun : Steps init trace final)
    (htasks : init.tasks = []) (hlog : init.log = [])
    (hcleared : init.st.cleared_points_ = [])
    (a b : String) (hdep : DependsOn init.st.predecessors_ a b)
    (l1 l2 : List Obs) :
    ((final.log = l1 ++ Obs.wakeObs b :: l2 → Obs.clearedObs a ∈ l1) ∧
      (final.log = l1 ++ Obs.clearedObs b :: l2 → Obs.clearedObs a ∈ l1)) ∧
    (Steps cfgU traceXY finalXY ∧ Steps cfgU traceYX finalYX ∧
      finalXY.log = [Obs.wakeObs "X", Obs.clearedObs "X",
        Obs.wakeObs "Y", Obs.clearedObs "Y"] ∧
      finalYX.log = [Obs.wakeObs "Y", Obs.clearedObs "Y",
        Obs.wakeObs "X", Obs.clearedObs "X"]) := by
  have hg : GoodCfg init.st.predecessors_ final :=
    steps_good hrun (good_init init htasks hlog hcleared)
  have hmain : ∀ (u1 u2 : List Obs), final.log = u1 ++ Obs.wakeObs b :: u2 →
      Obs.clearedObs a ∈ u1 :=
    log_wake_cleared_before hg.wake_preds hg.cleared_wake hdep
  constructor
  · constructor
    · exact hmain l1 l2
    · intro hl
      have hwb : Obs.wakeObs b ∈ l1 := hg.cleared_wake l1 b l2 hl
      obtain ⟨u1, u2, hu⟩ := List.append_of_mem hwb
      have hl3 : final.log = u1 ++ Obs.wakeObs b ::
          (u2 ++ Obs.clearedObs b :: l2) := by
        rw [hl, hu]
        simp
      have := hmain u1 _ hl3
      rw [hu]
      exact List.mem_append_left _ this
  · exact ⟨Steps_of_run rfl, Steps_of_run rfl, rfl, rfl⟩

/-- Witness execution for C3: graph with the single edge `A → B`; `A` fires to
completion, then `B`. -/
def cfgAB : Config := cfgFor [⟨"A", "B"⟩]

def traceAB : List PEvent :=
  [.start 0 "A" 7, .wake 0, .finish 0, .start 1 "B" 8, .wake 1, .finish 1]

def finalAB : Config := (runTrace cfgAB traceAB).getD cfgAB

/-- Witness for C3 on the concrete execution `traceAB`: `B` depends on `A`,
and `A`'s clearing indeed precedes `B`'s wake in the log. -/
theorem C3_witness :
    Obs.clearedObs "A" ∈ [Obs.wakeObs "A", Obs.clearedObs "A"] := by
  have hdep : DependsOn cfgAB.st.predecessors_ "A" "B" :=
    Relation.TransGen.single
      (show "A" ∈ (mfind cfgAB.st.predecessors_ "B").getD [] by decide)
  have h := C3_happens_before cfgAB finalAB traceAB (Steps_of_run rfl)
    rfl rfl rfl "A" "B" hdep
    [Obs.wakeObs "A", Obs.clearedObs "A"] [Obs.clearedObs "B"]
  exact h.1.1 (by decide)

/-! ### The in-flight callback counter -/

/-- A task contributes to the in-flight counter exactly when it is inside the
callback region with a registered callback. -/
def cbWeight (t : PTask) : Nat :=
  if t.phase = TPhase.running ∧ t.hasCb = true then 1 else 0

/-- Number of callbacks currently executing, read off the task list. -/
def cbRunning (tasks : List (Nat × PTask)) : Nat :=
  (tasks.map (fun p => cbWeight p.2)).sum

theorem cbRunning_massign (m : List (Nat × PTask)) (k : Nat) :
    ∀ (t t' : PTask), mfind m k = some t →
      cbRunning (massign m k t') + cbWeight t = cbRunning m + cbWeight t' := by
  induction m with
  | nil => intro t t' hm; simp [mfind] at hm
  | cons p rest ih =>
    intro t t' hm
    obtain ⟨k0, v0⟩ := p
    by_cases h0 : k0 = k
    · subst h0
      simp [mfind] at hm
      subst hm
      simp [massign, cbRunning]
      omega
    · simp only [mfind, if_neg h0] at hm
      simp only [massign, if_neg h0]
      simp only [cbRunning, List.map_cons, List.sum_cons]
      have := ih t t' hm
      simp only [cbRunning] at this
      omega

theorem cbRunning_merase (m : List (Nat × PTask)) (k : Nat) :
    ∀ t : PTask, mfind m k = some t →
      cbRunning (merase m k) + cbWeight t = cbRunning m := by
  induction m with
  | nil => intro t hm; simp [mfind] at hm
  | cons p rest ih =>
    intro t hm
    obtain ⟨k0, v0⟩ := p
    by_cases h0 : k0 = k
    · subst h0
      simp [mfind] at hm
      subst hm
      simp [merase, cbRunning]
      omega
    · simp only [mfind, if_neg h0] at hm
      simp only [merase, if_neg h0]
      simp only [cbRunning, List.map_cons, List.sum_cons]
      have := ih t hm
      simp only [cbRunning] at this
      omega

/-- The source invariant behind `num_callbacks_running_`: it always equals the
number of tasks inside the callback region with a registered callback. -/
def CounterInv (c : Config) : Prop :=
  c.st.num_callbacks_running_ = cbRunning c.tasks

theorem pstep_counter {c c' : Config} {e : PEvent} (hc : CounterInv c)
    (h : pstep c e = some c') : CounterInv c' := by
  cases e with
  | enable =>
    simp only [pstep, Option.some.injEq] at h
    subst h
    exact hc
  | disable =>
    simp only [pstep, Option.some.injEq] at h
    subst h
    exact hc
  | setCallBack point cb =>
    simp only [pstep, Option.some.injEq] at h
    subst h
    exact hc
  | clearCallBack point =>
    simp only [pstep] at h
    split at h
    · simp only [Option.some.injEq] at h
      subst h
      exact hc
    · simp at h
  | clearAllCallBacks =>
    simp only [pstep] at h
    split at h
    · simp only [Option.some.injEq] at h
      subst h
      exact hc
    · simp at h
  | clearTrace =>
    simp only [pstep, Option.some.injEq] at h
    subst h
    exact hc
  | start id point tid =>
    simp only [pstep] at h
    split at h
    · simp at h
    · split at h
      · simp at h
      · split at h
        · simp only [Option.some.injEq] at h
          subst h
          exact hc
        · simp only [Option.some.injEq] at h
          subst h
          unfold CounterInv at hc ⊢
          simp only [cbRunning, List.map_cons, List.sum_cons]
          have hw : cbWeight ⟨point, tid, TPhase.waiting, false⟩ = 0 := by
            simp [cbWeight]
          rw [hw]
          simpa [cbRunning] using hc
  | wake id =>
    simp only [pstep] at h
    split at h
    · simp at h
    · rename_i t hmf
      split at h
      · rename_i hcond
        obtain ⟨hph, -, -⟩ := hcond
        simp only [Option.some.injEq] at h
        subst h
        unfold CounterInv at hc ⊢
        have hmas := cbRunning_massign c.tasks id t
          { t with phase := TPhase.running,
                   hasCb := (mfind c.st.callbacks_ t.point).isSome } hmf
        have hwt : cbWeight t = 0 := by
          simp [cbWeight, hph]
        have hwt' : cbWeight
            { t with phase := TPhase.running,
                     hasCb := (mfind c.st.callbacks_ t.point).isSome } =
            (if (mfind c.st.callbacks_ t.point).isSome = true then 1 else 0) := by
          simp [cbWeight]
        rw [hwt, hwt'] at hmas
        simp only []
        omega
      · simp at h
  | suppress id =>
    simp only [pstep] at h
    split at h
    · simp at h
    · rename_i t hmf
      split at h
      · rename_i hcond
        simp only [Option.some.injEq] at h
        subst h
        unfold CounterInv at hc ⊢
        show c.st.num_callbacks_running_ = cbRunning (merase c.tasks id)
        have hmer := cbRunning_merase c.tasks id t hmf
        have hwt : cbWeight t = 0 := by
          simp [cbWeight, hcond.1]
        omega
      · simp at h
  | finish id =>
    simp only [pstep] at h
    split at h
    · simp at h
    · rename_i t hmf
      split at h
      · rename_i hph
        simp only [Option.some.injEq] at h
        subst h
        unfold CounterInv at hc ⊢
        have hmer := cbRunning_merase c.tasks id t hmf
        have hwt : cbWeight t = (if t.hasCb = true then 1 else 0) := by
          simp [cbWeight, hph]
        rw [hwt] at hmer
        simp only []
        omega
      · simp at h

theorem steps_counter {init fin : Config} {tr : List PEvent}
    (hrun : Steps init tr fin) (hc : CounterInv init) : CounterInv fin := by
  induction hrun with
  | nil c => exact hc
  | cons hstep hrest ih => exact ih (pstep_counter hc hstep)

/-- Claim C6: in every execution from a clean start, a removal step
(`ClearCallBack`/`ClearAllCallBacks`) is possible only when the in-flight
counter is zero — and then, by the counter invariant, no task is executing a
registered callback; while the counter is non-zero both removal operations
block (their step is not enabled); an insertion (`SetCallBack`) is always
enabled, whatever the counter. -/
theorem C6_removal_waits_for_callbacks (init final : Config)
    (trace : List PEvent) (hrun : Steps init trace final)
    (htasks : init.tasks = [])
    (hcnt : init.st.num_callbacks_running_ = 0) :
    (∀ (point : String) (c' : Config),
      pstep final (PEvent.clearCallBack point) = some c' →
        final.st.num_callbacks_running_ = 0 ∧
        ∀ p ∈ final.tasks,
          ¬(p.2.phase = TPhase.running ∧ p.2.hasCb = true)) ∧
    (∀ c' : Config, pstep final PEvent.clearAllCallBacks = some c' →
        final.st.num_callbacks_running_ = 0 ∧
        ∀ p ∈ final.tasks,
          ¬(p.2.phase = TPhase.running ∧ p.2.hasCb = true)) ∧
    (final.st.num_callbacks_running_ ≠ 0 →
      (∀ point : String, pstep final (PEvent.clearCallBack point) = none) ∧
      pstep final PEvent.clearAllCallBacks = none) ∧
    (∀ (point : String) (cb : CallbackId),
      (pstep final (PEvent.setCallBack point cb)).isSome = true) := by
  have hinv : CounterInv final := by
    refine steps_counter hrun ?_
    unfold CounterInv
    rw [htasks, hcnt]
    rfl
  have hzero : final.st.num_callbacks_running_ = 0 →
      ∀ p ∈ final.tasks, ¬(p.2.phase = TPhase.running ∧ p.2.hasCb = true) := by
    intro h0 p hp hcontra
    have hsum : cbRunning final.tasks = 0 := by
      unfold CounterInv at hinv
      omega
    have hw0 : cbWeight p.2 = 0 := by
      unfold cbRunning at hsum
      have := List.sum_eq_zero_iff.mp hsum (cbWeight p.2)
        (List.mem_map_of_mem _ hp)
      exact this
    simp [cbWeight, hcontra.1, hcontra.2] at hw0
  refine ⟨?_, ?_, ?_, ?_⟩
  · intro point c' h
    simp only [pstep] at h
    split at h
    · rename_i h0
      exact ⟨h0, hzero h0⟩
    · simp at h
  · intro c' h
    simp only [pstep] at h
    split at h
    · rename_i h0
      exact ⟨h0, hzero h0⟩
    · simp at h
  · intro hne
    constructor
    · intro point
      simp [pstep, hne]
    · simp [pstep, hne]
  · intro point cb
    simp [pstep]

/-- Witness for C6 at the clean initial configuration with the empty trace. -/
theorem C6_witness :
    (pstep { st := initImpl, tasks := [], log := [] }
      (PEvent.setCallBack "X" 5)).isSome = true :=
  (C6_removal_waits_for_callbacks { st := initImpl, tasks := [], log := [] }
    { st := initImpl, tasks := [], log := [] } []
    (Steps.nil _) rfl rfl).2.2.2 "X" 5

end SyncPoint
